import Mathlib

/-!
Verification of the structured parallel mesh generator `GeneratedMesh`
(`packages/stk/stk_util/stk_util/unit_test_support/GeneratedMesh.cpp`).

The C++ class is shallowly embedded: `size_t` quantities become `Nat`
(all index arithmetic in the generator is far below the 64-bit range for
any input the claims quantify over, and no expression relies on wraparound),
`double` scale/offset/rotation entries become `Rat` (every claim below
compares the code's arithmetic expressions symbolically, so the exact-field
model is faithful), and the output arrays filled by the generator methods
become the `List`s produced by translating the loop nests directly.
-/

namespace GenMesh

/-- The six shell-block face locations (`ShellLocation` in the source). -/
inductive ShellLocation
  | MX | PX | MY | PY | MZ | PZ
deriving DecidableEq, Repr

open ShellLocation

/-- State of a `GeneratedMesh` instance: the fields of the C++ class.
`rotmat` is the 3x3 accumulated rotation matrix. -/
structure GeneratedMesh where
  numX : ℕ
  numY : ℕ
  numZ : ℕ
  myNumZ : ℕ
  myStartZ : ℕ
  processorCount : ℕ
  myProcessor : ℕ
  offX : ℚ
  offY : ℚ
  offZ : ℚ
  sclX : ℚ
  sclY : ℚ
  sclZ : ℚ
  rotmat : Fin 3 → Fin 3 → ℚ
  doRotation : Bool
  shellBlocks : List ShellLocation

/-- The identity matrix that `initialize()` stores into `rotmat`. -/
def identity3 : Fin 3 → Fin 3 → ℚ := fun i j => if i = j then 1 else 0

/-- `myNumZ` as computed by `GeneratedMesh::initialize()`:
`numZ / processorCount`, plus one when `myProcessor < numZ % processorCount`;
when `processorCount <= 1` the whole of `numZ`. -/
def uniform_myNumZ (numZ P r : ℕ) : ℕ :=
  if 1 < P then numZ / P + (if r < numZ % P then 1 else 0) else numZ

/-- `myStartZ` as computed by `GeneratedMesh::initialize()`:
`extra` starts as `numZ % processorCount` and is clamped down to
`myProcessor`, then `myStartZ = myProcessor * per_proc + extra`;
when `processorCount <= 1` it keeps its constructor value `0`. -/
def uniform_myStartZ (numZ P r : ℕ) : ℕ :=
  if 1 < P then r * (numZ / P) + min (numZ % P) r else 0

/-- The constructor `GeneratedMesh(num_x, num_y, num_z, proc_count, my_proc)`
followed by `initialize()`: scale 1, offset 0, identity rotation, no shell
blocks, uniform Z split. -/
def GeneratedMesh.create (num_x num_y num_z proc_count my_proc : ℕ) : GeneratedMesh :=
  { numX := num_x, numY := num_y, numZ := num_z
    myNumZ := uniform_myNumZ num_z proc_count my_proc
    myStartZ := uniform_myStartZ num_z proc_count my_proc
    processorCount := proc_count, myProcessor := my_proc
    offX := 0, offY := 0, offZ := 0
    sclX := 1, sclY := 1, sclZ := 1
    rotmat := identity3, doRotation := false, shellBlocks := [] }

/-! ### Generic indexing helpers for loop-nest lists -/

/-- Length of a `flatMap` over `List.range` whose chunks all have length `c`. -/
theorem length_flatMap_const {α : Type} (f : ℕ → List α) (c : ℕ)
    (h : ∀ x, (f x).length = c) (n : ℕ) :
    ((List.range n).flatMap f).length = n * c := by
  induction n with
  | zero => simp
  | succ n ih =>
    rw [List.range_succ, List.flatMap_append, List.length_append, ih]
    simp [h, Nat.succ_mul]

/-- Element `q*c + r` of a `flatMap` over `List.range n` with constant chunk
length `c` is element `r` of chunk `q`. -/
theorem getElem?_flatMap_const {α : Type} (f : ℕ → List α) (c : ℕ)
    (h : ∀ x, (f x).length = c) (n q r : ℕ) (hq : q < n) (hr : r < c) :
    ((List.range n).flatMap f)[q * c + r]? = (f q)[r]? := by
  induction n with
  | zero => omega
  | succ n ih =>
    rw [List.range_succ, List.flatMap_append]
    rcases Nat.lt_or_ge q n with hq' | hq'
    · rw [List.getElem?_append_left, ih hq']
      rw [length_flatMap_const f c h n]
      calc q * c + r < q * c + c := by omega
        _ = (q + 1) * c := by ring
        _ ≤ n * c := Nat.mul_le_mul_right c hq'
    · have hqn : q = n := by omega
      subst hqn
      have hlen : ((List.range q).flatMap f).length = q * c :=
        length_flatMap_const f c h q
      rw [List.getElem?_append_right (by omega), hlen]
      simp only [List.flatMap_cons, List.flatMap_nil, List.append_nil]
      congr 1
      omega

/-- Bound for a three-level row-major index. -/
theorem index3_lt (a b c A B C : ℕ) (ha : a < A) (hb : b < B) (hc : c < C) :
    a * (B * C) + b * C + c < A * (B * C) := by
  calc a * (B * C) + b * C + c < a * (B * C) + b * C + C := by omega
    _ = a * (B * C) + (b + 1) * C := by ring
    _ ≤ a * (B * C) + B * C := by
        have h1 : (b + 1) * C ≤ B * C := Nat.mul_le_mul_right C hb
        omega
    _ = (a + 1) * (B * C) := by ring
    _ ≤ A * (B * C) := Nat.mul_le_mul_right _ ha

/-! ### C1: the uniform Z-partition -/

/-- For a rank in range, `initialize()`'s `myStartZ` matches the closed form
`r * per_proc + min (numZ % P) r` (also in the `processorCount == 1` branch,
where the constructor's initial `0` is kept). -/
theorem uniform_myStartZ_formula (numZ P r : ℕ) (hP : 0 < P) (hr : r < P) :
    uniform_myStartZ numZ P r = r * (numZ / P) + min (numZ % P) r := by
  unfold uniform_myStartZ
  rcases Nat.lt_or_ge 1 P with h | h
  · simp [h]
  · have hP1 : P = 1 := by omega
    have hr0 : r = 0 := by omega
    subst hP1; subst hr0
    simp

/-- For a rank in range, `initialize()`'s `myNumZ` matches the closed form
`per_proc + (1 if r < numZ % P else 0)`. -/
theorem uniform_myNumZ_formula (numZ P r : ℕ) (hP : 0 < P) (hr : r < P) :
    uniform_myNumZ numZ P r = numZ / P + (if r < numZ % P then 1 else 0) := by
  unfold uniform_myNumZ
  rcases Nat.lt_or_ge 1 P with h | h
  · simp [h]
  · have hP1 : P = 1 := by omega
    have hr0 : r = 0 := by omega
    subst hP1; subst hr0
    simp [Nat.mod_one]

/-- Step identity for the start-offset formula: rank `r+1` starts exactly
where rank `r`'s slab ends. -/
theorem start_formula_step (q m r : ℕ) :
    (r + 1) * q + min m (r + 1) = (r * q + min m r) + (q + if r < m then 1 else 0) := by
  have h1 : (r + 1) * q = r * q + q := by ring
  rcases Nat.lt_or_ge r m with h | h
  · simp only [if_pos h]
    omega
  · simp only [if_neg (by omega : ¬ r < m)]
    omega

/-- Any `z` below the last partial sum of a sequence starting at `0` lies in
some step interval. -/
theorem exists_step_interval (S : ℕ → ℕ) (hS0 : S 0 = 0) (n z : ℕ) (hz : z < S n) :
    ∃ r, r < n ∧ S r ≤ z ∧ z < S (r + 1) := by
  induction n with
  | zero => omega
  | succ n ih =>
    rcases Nat.lt_or_ge z (S n) with h | h
    · obtain ⟨r, hr1, hr2, hr3⟩ := ih h
      exact ⟨r, by omega, hr2, hr3⟩
    · exact ⟨n, by omega, h, hz⟩

/-- C1: for every valid construction (positive sizes, `numZ >= processorCount`)
with the uniform split, each rank's slab matches the claimed closed forms
(`per_proc = numZ / P`, `extra = min (numZ % P) r`,
`myStartZ = r * per_proc + extra`,
`myNumZ = per_proc + (1 if r < numZ % P else 0)`), rank `0` starts at `0`,
consecutive ranks' slabs are contiguous, the last rank's slab ends at `numZ`,
and every `z < numZ` lies in exactly one rank's slab `[myStartZ, myStartZ + myNumZ)`. -/
theorem uniform_partition_tiles (nx ny nz P : ℕ)
    (hx : 0 < nx) (hy : 0 < ny) (hz : 0 < nz) (hP : 0 < P) (hzp : P ≤ nz) :
    (∀ r, r < P →
      (GeneratedMesh.create nx ny nz P r).myStartZ = r * (nz / P) + min (nz % P) r ∧
      (GeneratedMesh.create nx ny nz P r).myNumZ
        = nz / P + (if r < nz % P then 1 else 0)) ∧
    (GeneratedMesh.create nx ny nz P 0).myStartZ = 0 ∧
    (∀ r, r + 1 < P →
      (GeneratedMesh.create nx ny nz P r).myStartZ + (GeneratedMesh.create nx ny nz P r).myNumZ
        = (GeneratedMesh.create nx ny nz P (r + 1)).myStartZ) ∧
    ((GeneratedMesh.create nx ny nz P (P - 1)).myStartZ
      + (GeneratedMesh.create nx ny nz P (P - 1)).myNumZ = nz) ∧
    (∀ z, z < nz → ∃! r, r < P ∧
      (GeneratedMesh.create nx ny nz P r).myStartZ ≤ z ∧
      z < (GeneratedMesh.create nx ny nz P r).myStartZ
          + (GeneratedMesh.create nx ny nz P r).myNumZ) := by
  set q := nz / P with hq
  set m := nz % P with hm
  set S : ℕ → ℕ := fun r => r * q + min m r with hS
  set D : ℕ → ℕ := fun r => q + if r < m then 1 else 0 with hD
  have hstart : ∀ r, r < P → (GeneratedMesh.create nx ny nz P r).myStartZ = S r := by
    intro r hr
    exact uniform_myStartZ_formula nz P r hP hr
  have hnum : ∀ r, r < P → (GeneratedMesh.create nx ny nz P r).myNumZ = D r := by
    intro r hr
    exact uniform_myNumZ_formula nz P r hP hr
  have hstep : ∀ r, S (r + 1) = S r + D r := by
    intro r
    exact start_formula_step q m r
  have hS0 : S 0 = 0 := by simp [hS]
  have hSP : S P = nz := by
    have hmP : m < P := Nat.mod_lt nz hP
    have : S P = P * q + m := by
      simp [hS, Nat.min_eq_left (Nat.le_of_lt hmP), Nat.mul_comm]
    rw [this, hq, hm]
    exact Nat.div_add_mod nz P
  have hmono : Monotone S := by
    apply monotone_nat_of_le_succ
    intro r
    rw [hstep r]
    omega
  refine ⟨fun r hr => ⟨hstart r hr, hnum r hr⟩, hstart 0 hP ▸ hS0, ?_, ?_, ?_⟩
  · intro r hr1
    rw [hstart r (by omega), hnum r (by omega), hstart (r + 1) hr1, ← hstep r]
  · have hP1 : P - 1 < P := by omega
    rw [hstart _ hP1, hnum _ hP1, ← hstep (P - 1)]
    have : P - 1 + 1 = P := by omega
    rw [this, hSP]
  · intro z hzlt
    obtain ⟨r, hrP, hle, hlt⟩ := exists_step_interval S hS0 P z (by omega)
    refine ⟨r, ⟨hrP, ?_, ?_⟩, ?_⟩
    · rw [hstart r hrP]; exact hle
    · rw [hstart r hrP, hnum r hrP, ← hstep r]; exact hlt
    · intro r' ⟨hr'P, hle', hlt'⟩
      rw [hstart r' hr'P] at hle'
      rw [hstart r' hr'P, hnum r' hr'P, ← hstep r'] at hlt'
      by_contra hne
      rcases Nat.lt_or_ge r' r with hc | hc
      · have : S (r' + 1) ≤ S r := hmono hc
        omega
      · have hrr : r < r' := by omega
        have : S (r + 1) ≤ S r' := hmono hrr
        omega

/-- Witness for C1 at `numX = numY = 1`, `numZ = 5`, `P = 3`, last rank `2`. -/
theorem uniform_partition_tiles_witness :
    ((0:ℕ) < 1 ∧ (0:ℕ) < 5 ∧ (0:ℕ) < 3 ∧ 3 ≤ 5) ∧
    (GeneratedMesh.create 1 1 5 3 (3 - 1)).myStartZ
      + (GeneratedMesh.create 1 1 5 3 (3 - 1)).myNumZ = 5 :=
  ⟨⟨by decide, by decide, by decide, by decide⟩,
   (uniform_partition_tiles 1 1 5 3 (by decide) (by decide) (by decide) (by decide)
     (by decide)).2.2.2.1⟩

/-! ### C2/C3: the two `coordinates` variants

The source loops `m` from `myStartZ` to `myStartZ + myNumZ` inclusive; the
embedding runs `mz` over `range (myNumZ + 1)` with `m = myStartZ + mz`. -/

/-- The flat interleaved coordinate array built by the first loop nest of
`coordinates(std::vector<double>&)`, before the optional rotation pass. -/
def rawInterleaved (gm : GeneratedMesh) : List ℚ :=
  (List.range (gm.myNumZ + 1)).flatMap fun mz =>
    (List.range (gm.numY + 1)).flatMap fun i =>
      (List.range (gm.numX + 1)).flatMap fun j =>
        [gm.sclX * (j : ℚ) + gm.offX,
         gm.sclY * (i : ℚ) + gm.offY,
         gm.sclZ * ((gm.myStartZ + mz : ℕ) : ℚ) + gm.offZ]

/-- The in-place rotation pass of `coordinates(std::vector<double>&)`: each
consecutive `(x, y, z)` record is replaced by its product with the columns of
`rotmat`. -/
def rotateInterleaved (rot : Fin 3 → Fin 3 → ℚ) : List ℚ → List ℚ
  | x :: y :: z :: rest =>
      (x * rot 0 0 + y * rot 1 0 + z * rot 2 0) ::
      (x * rot 0 1 + y * rot 1 1 + z * rot 2 1) ::
      (x * rot 0 2 + y * rot 1 2 + z * rot 2 2) :: rotateInterleaved rot rest
  | l => l

/-- `GeneratedMesh::coordinates(std::vector<double> &coord)`: interleaved
x,y,z records, rotated in place when `doRotation` is set. -/
def coordinates (gm : GeneratedMesh) : List ℚ :=
  if gm.doRotation then rotateInterleaved gm.rotmat (rawInterleaved gm)
  else rawInterleaved gm

/-- The node coordinates produced by the loop nest of
`coordinates(std::vector<double>&, ..., ...)` as a list of `(x, y, z)`
triples (the three parallel arrays share the index `k`). -/
def rawTriples (gm : GeneratedMesh) : List (ℚ × ℚ × ℚ) :=
  (List.range (gm.myNumZ + 1)).flatMap fun mz =>
    (List.range (gm.numY + 1)).flatMap fun i =>
      (List.range (gm.numX + 1)).flatMap fun j =>
        [(gm.sclX * (j : ℚ) + gm.offX,
          gm.sclY * (i : ℚ) + gm.offY,
          gm.sclZ * ((gm.myStartZ + mz : ℕ) : ℚ) + gm.offZ)]

/-- The per-index rotation applied by the separated-variant rotation pass:
`x[i], y[i], z[i]` are replaced by their products with the columns of
`rotmat`. -/
def rotate_point (rot : Fin 3 → Fin 3 → ℚ) (p : ℚ × ℚ × ℚ) : ℚ × ℚ × ℚ :=
  (p.1 * rot 0 0 + p.2.1 * rot 1 0 + p.2.2 * rot 2 0,
   p.1 * rot 0 1 + p.2.1 * rot 1 1 + p.2.2 * rot 2 1,
   p.1 * rot 0 2 + p.2.1 * rot 1 2 + p.2.2 * rot 2 2)

/-- The coordinate triples after the optional rotation pass. -/
def coordTriples (gm : GeneratedMesh) : List (ℚ × ℚ × ℚ) :=
  if gm.doRotation then (rawTriples gm).map (rotate_point gm.rotmat)
  else rawTriples gm

/-- `GeneratedMesh::coordinates(std::vector<double> &x, &y, &z)`: the three
parallel coordinate arrays. -/
def coordinates3 (gm : GeneratedMesh) : List ℚ × List ℚ × List ℚ :=
  ((coordTriples gm).map fun p => p.1,
   (coordTriples gm).map fun p => p.2.1,
   (coordTriples gm).map fun p => p.2.2)

/-- Bound for a two-level row-major index. -/
theorem index2_lt (a r A c : ℕ) (ha : a < A) (hr : r < c) :
    a * c + r < A * c := by
  calc a * c + r < a * c + c := by omega
    _ = (a + 1) * c := by ring
    _ ≤ A * c := Nat.mul_le_mul_right c ha

/-- Element lookup in the un-rotated interleaved coordinate array. -/
theorem rawInterleaved_getElem (gm : GeneratedMesh) (mz i j t : ℕ)
    (hm : mz < gm.myNumZ + 1) (hi : i < gm.numY + 1) (hj : j < gm.numX + 1)
    (ht : t < 3) :
    (rawInterleaved gm)[mz * ((gm.numY + 1) * ((gm.numX + 1) * 3))
        + (i * ((gm.numX + 1) * 3) + (j * 3 + t))]?
      = [gm.sclX * (j : ℚ) + gm.offX,
         gm.sclY * (i : ℚ) + gm.offY,
         gm.sclZ * ((gm.myStartZ + mz : ℕ) : ℚ) + gm.offZ][t]? := by
  have hchunk : ∀ (mz' i' j' : ℕ),
      ([gm.sclX * (j' : ℚ) + gm.offX, gm.sclY * (i' : ℚ) + gm.offY,
        gm.sclZ * ((gm.myStartZ + mz' : ℕ) : ℚ) + gm.offZ]).length = 3 := by
    intro mz' i' j'; rfl
  have hinner : ∀ (mz' i' : ℕ),
      ((List.range (gm.numX + 1)).flatMap fun j' =>
        [gm.sclX * (j' : ℚ) + gm.offX, gm.sclY * (i' : ℚ) + gm.offY,
         gm.sclZ * ((gm.myStartZ + mz' : ℕ) : ℚ) + gm.offZ]).length
        = (gm.numX + 1) * 3 := by
    intro mz' i'
    exact length_flatMap_const _ 3 (hchunk mz' i') _
  have houter : ∀ (mz' : ℕ),
      ((List.range (gm.numY + 1)).flatMap fun i' =>
        (List.range (gm.numX + 1)).flatMap fun j' =>
          [gm.sclX * (j' : ℚ) + gm.offX, gm.sclY * (i' : ℚ) + gm.offY,
           gm.sclZ * ((gm.myStartZ + mz' : ℕ) : ℚ) + gm.offZ]).length
        = (gm.numY + 1) * ((gm.numX + 1) * 3) := by
    intro mz'
    exact length_flatMap_const _ _ (fun i' => hinner mz' i') _
  unfold rawInterleaved
  rw [getElem?_flatMap_const _ _ houter _ mz _ hm
      (index2_lt i _ _ _ hi (index2_lt j t _ 3 hj ht))]
  rw [getElem?_flatMap_const _ _ (hinner mz) _ i _ hi (index2_lt j t _ 3 hj ht)]
  rw [getElem?_flatMap_const _ 3 (hchunk mz i) _ j t hj ht]

/-- C2: with rotation disabled, the interleaved `coordinates()` array is
ordered Z-major then Y then X, and the record for node
`(m = myStartZ + mz, i, j)` is exactly
`(sclX*j + offX, sclY*i + offY, sclZ*m + offZ)`. -/
theorem coordinates_closed_form (gm : GeneratedMesh) (hrot : gm.doRotation = false)
    (mz i j : ℕ) (hm : mz ≤ gm.myNumZ) (hi : i ≤ gm.numY) (hj : j ≤ gm.numX) :
    (coordinates gm)[3 * (mz * ((gm.numY + 1) * (gm.numX + 1)) + i * (gm.numX + 1) + j)]?
      = some (gm.sclX * (j : ℚ) + gm.offX) ∧
    (coordinates gm)[3 * (mz * ((gm.numY + 1) * (gm.numX + 1)) + i * (gm.numX + 1) + j) + 1]?
      = some (gm.sclY * (i : ℚ) + gm.offY) ∧
    (coordinates gm)[3 * (mz * ((gm.numY + 1) * (gm.numX + 1)) + i * (gm.numX + 1) + j) + 2]?
      = some (gm.sclZ * ((gm.myStartZ + mz : ℕ) : ℚ) + gm.offZ) := by
  have hco : coordinates gm = rawInterleaved gm := by
    unfold coordinates; rw [hrot]; simp
  have hidx : ∀ t : ℕ,
      3 * (mz * ((gm.numY + 1) * (gm.numX + 1)) + i * (gm.numX + 1) + j) + t
        = mz * ((gm.numY + 1) * ((gm.numX + 1) * 3))
          + (i * ((gm.numX + 1) * 3) + (j * 3 + t)) := by
    intro t; ring
  refine ⟨?_, ?_, ?_⟩
  · have := rawInterleaved_getElem gm mz i j 0 (by omega) (by omega) (by omega) (by decide)
    rw [hco]
    rw [show 3 * (mz * ((gm.numY + 1) * (gm.numX + 1)) + i * (gm.numX + 1) + j)
        = 3 * (mz * ((gm.numY + 1) * (gm.numX + 1)) + i * (gm.numX + 1) + j) + 0 by omega]
    rw [hidx 0, this]
    rfl
  · rw [hco, hidx 1,
      rawInterleaved_getElem gm mz i j 1 (by omega) (by omega) (by omega) (by decide)]
    rfl
  · rw [hco, hidx 2,
      rawInterleaved_getElem gm mz i j 2 (by omega) (by omega) (by omega) (by decide)]
    rfl

/-- Witness for C2 on a concrete mesh: `2x2x2`, one processor, node
`(mz, i, j) = (1, 2, 1)`. -/
theorem coordinates_closed_form_witness :
    ((GeneratedMesh.create 2 2 2 1 0).doRotation = false ∧ 1 ≤ 2 ∧ 2 ≤ 2 ∧ 1 ≤ 2) ∧
    (coordinates (GeneratedMesh.create 2 2 2 1 0))[3 * (1 * ((2 + 1) * (2 + 1)) + 2 * (2 + 1) + 1)]?
      = some ((GeneratedMesh.create 2 2 2 1 0).sclX * ((1 : ℕ) : ℚ)
          + (GeneratedMesh.create 2 2 2 1 0).offX) :=
  ⟨⟨rfl, by decide, by decide, by decide⟩,
   (coordinates_closed_form (GeneratedMesh.create 2 2 2 1 0) rfl 1 2 1
     (by decide) (by decide) (by decide)).1⟩

/-- The interleaved raw array is the flattening of the triple list: both loop
nests enumerate the same nodes in the same order. -/
theorem rawInterleaved_eq_flatMap (gm : GeneratedMesh) :
    rawInterleaved gm = (rawTriples gm).flatMap fun p => [p.1, p.2.1, p.2.2] := by
  unfold rawInterleaved rawTriples
  simp only [List.flatMap_assoc, List.flatMap_cons, List.flatMap_nil, List.append_nil]

/-- Unfolding equation for one record of the interleaved rotation pass. -/
theorem rotateInterleaved_cons (rot : Fin 3 → Fin 3 → ℚ) (x y z : ℚ)
    (rest : List ℚ) :
    rotateInterleaved rot (x :: y :: z :: rest)
      = (x * rot 0 0 + y * rot 1 0 + z * rot 2 0) ::
        (x * rot 0 1 + y * rot 1 1 + z * rot 2 1) ::
        (x * rot 0 2 + y * rot 1 2 + z * rot 2 2) :: rotateInterleaved rot rest := rfl

/-- The in-place interleaved rotation pass agrees with rotating each triple. -/
theorem rotateInterleaved_flatMap (rot : Fin 3 → Fin 3 → ℚ)
    (l : List (ℚ × ℚ × ℚ)) :
    rotateInterleaved rot (l.flatMap fun p => [p.1, p.2.1, p.2.2])
      = (l.map (rotate_point rot)).flatMap fun p => [p.1, p.2.1, p.2.2] := by
  induction l with
  | nil => rfl
  | cons p l ih =>
    rw [List.flatMap_cons, List.map_cons, List.flatMap_cons]
    simp only [List.cons_append, List.nil_append]
    rw [rotateInterleaved_cons, ih]
    rfl

/-- `coordinates` is the flattening of the rotated triple list. -/
theorem coordinates_eq_flatMap (gm : GeneratedMesh) :
    coordinates gm = (coordTriples gm).flatMap fun p => [p.1, p.2.1, p.2.2] := by
  unfold coordinates coordTriples
  rcases h : gm.doRotation with _ | _
  · simp [rawInterleaved_eq_flatMap]
  · simp [rawInterleaved_eq_flatMap, rotateInterleaved_flatMap]

/-- Skipping one 3-element record in a cons-list lookup. -/
theorem getElem?_cons3 {α : Type} (a b c : α) (rest : List α) (m : ℕ) :
    (a :: b :: c :: rest)[3 + m]? = rest[m]? := by
  rw [show 3 + m = m + 1 + 1 + 1 by omega]
  simp [List.getElem?_cons_succ]

/-- Lookup at `3k`, `3k+1`, `3k+2` in a flattened triple list is lookup at `k`
in the component projections (both sides are `none` past the end). -/
theorem flatMap_triple_getElem (l : List (ℚ × ℚ × ℚ)) (k : ℕ) :
    (l.flatMap fun p => [p.1, p.2.1, p.2.2])[3 * k]? = (l.map fun p => p.1)[k]? ∧
    (l.flatMap fun p => [p.1, p.2.1, p.2.2])[3 * k + 1]? = (l.map fun p => p.2.1)[k]? ∧
    (l.flatMap fun p => [p.1, p.2.1, p.2.2])[3 * k + 2]? = (l.map fun p => p.2.2)[k]? := by
  induction l generalizing k with
  | nil => simp
  | cons p l ih =>
    rcases k with _ | k
    · simp
    · simp only [List.flatMap_cons, List.map_cons, List.cons_append, List.nil_append,
        List.getElem?_cons_succ]
      refine ⟨?_, ?_, ?_⟩
      · rw [show 3 * (k + 1) = 3 + 3 * k by ring, getElem?_cons3]
        exact (ih k).1
      · rw [show 3 * (k + 1) = 3 * k + 1 + 1 + 1 by ring]
        simp only [List.getElem?_cons_succ]
        exact (ih k).2.1
      · rw [show 3 * (k + 1) = 3 * k + 2 + 1 by ring]
        simp only [List.getElem?_cons_succ]
        exact (ih k).2.2

/-- C3: for every mesh state (rotation included), the interleaved
`coordinates` array and the separated `coordinates3` arrays agree: entries
`3k`, `3k+1`, `3k+2` of the former are entries `k` of `x`, `y`, `z`. -/
theorem coordinates_variants_agree (gm : GeneratedMesh) (k : ℕ) :
    (coordinates gm)[3 * k]? = (coordinates3 gm).1[k]? ∧
    (coordinates gm)[3 * k + 1]? = (coordinates3 gm).2.1[k]? ∧
    (coordinates gm)[3 * k + 2]? = (coordinates3 gm).2.2[k]? := by
  rw [coordinates_eq_flatMap]
  exact flatMap_triple_getElem (coordTriples gm) k

/-! ### C4: element counts and their sum over ranks -/

/-- `GeneratedMesh::node_count()`. -/
def node_count (gm : GeneratedMesh) : ℕ :=
  (gm.numX + 1) * (gm.numY + 1) * (gm.numZ + 1)

/-- `GeneratedMesh::node_count_proc()`. -/
def node_count_proc (gm : GeneratedMesh) : ℕ :=
  (gm.numX + 1) * (gm.numY + 1) * (gm.myNumZ + 1)

/-- `GeneratedMesh::block_count()`. -/
def block_count (gm : GeneratedMesh) : ℕ :=
  gm.shellBlocks.length + 1

/-- `GeneratedMesh::shell_element_count(ShellLocation)`. -/
def shell_element_count (gm : GeneratedMesh) (loc : ShellLocation) : ℕ :=
  match loc with
  | MX | PX => gm.numY * gm.numZ
  | MY | PY => gm.numX * gm.numZ
  | MZ | PZ => gm.numX * gm.numY

/-- `GeneratedMesh::shell_element_count_proc(ShellLocation)`: the Z-boundary
faces are counted only on the rank owning that boundary. -/
def shell_element_count_proc (gm : GeneratedMesh) (loc : ShellLocation) : ℕ :=
  match loc with
  | MX | PX => gm.numY * gm.myNumZ
  | MY | PY => gm.numX * gm.myNumZ
  | MZ => if gm.myProcessor = 0 then gm.numX * gm.numY else 0
  | PZ => if gm.myProcessor = gm.processorCount - 1 then gm.numX * gm.numY else 0

/-- `GeneratedMesh::element_count()`: the hex block plus every declared shell
block (`element_count(1) + sum over blocks 2..block_count of element_count`). -/
def element_count (gm : GeneratedMesh) : ℕ :=
  gm.numX * gm.numY * gm.numZ + (gm.shellBlocks.map (shell_element_count gm)).sum

/-- `GeneratedMesh::element_count_proc()`: per-processor hex count plus the
per-processor shell counts. -/
def element_count_proc (gm : GeneratedMesh) : ℕ :=
  gm.numX * gm.numY * gm.myNumZ + (gm.shellBlocks.map (shell_element_count_proc gm)).sum

/-- The rank-`r` mesh state of an SPMD run with global sizes
`nx, ny, nz`, shell blocks `shells`, `P` ranks, and an arbitrary Z-partition
assigning rank `r` the slab `[startf r, startf r + numf r)`. -/
def withPartition (nx ny nz : ℕ) (shells : List ShellLocation) (P : ℕ)
    (numf startf : ℕ → ℕ) (r : ℕ) : GeneratedMesh :=
  { numX := nx, numY := ny, numZ := nz, myNumZ := numf r, myStartZ := startf r
    processorCount := P, myProcessor := r
    offX := 0, offY := 0, offZ := 0, sclX := 1, sclY := 1, sclZ := 1
    rotmat := identity3, doRotation := false, shellBlocks := shells }

/-- One shell block's per-processor counts sum over all ranks to its global
count, for any partition whose slab sizes sum to `numZ`. -/
theorem sum_shell_element_count_proc (nx ny nz : ℕ) (shells : List ShellLocation)
    (P : ℕ) (numf startf : ℕ → ℕ) (loc : ShellLocation) (hP : 0 < P)
    (hsum : ∑ r ∈ Finset.range P, numf r = nz) :
    ∑ r ∈ Finset.range P,
        shell_element_count_proc (withPartition nx ny nz shells P numf startf r) loc
      = shell_element_count (withPartition nx ny nz shells P numf startf 0) loc := by
  cases loc with
  | MX =>
    simp only [shell_element_count_proc, shell_element_count, withPartition]
    rw [← Finset.mul_sum, hsum]
  | PX =>
    simp only [shell_element_count_proc, shell_element_count, withPartition]
    rw [← Finset.mul_sum, hsum]
  | MY =>
    simp only [shell_element_count_proc, shell_element_count, withPartition]
    rw [← Finset.mul_sum, hsum]
  | PY =>
    simp only [shell_element_count_proc, shell_element_count, withPartition]
    rw [← Finset.mul_sum, hsum]
  | MZ =>
    simp only [shell_element_count_proc, shell_element_count, withPartition]
    rw [Finset.sum_ite_eq' (Finset.range P) 0 (fun _ => nx * ny)]
    simp [Finset.mem_range, hP]
  | PZ =>
    simp only [shell_element_count_proc, shell_element_count, withPartition]
    rw [Finset.sum_ite_eq' (Finset.range P) (P - 1) (fun _ => nx * ny)]
    have : P - 1 ∈ Finset.range P := Finset.mem_range.mpr (by omega)
    simp [this]

/-- A whole list of shell blocks: per-processor counts summed over ranks give
the global counts. (`locs` is the list being summed; the mesh states carry the
fixed `shells` field, which the counts do not consult.) -/
theorem sum_map_shell_proc (nx ny nz : ℕ) (shells : List ShellLocation)
    (P : ℕ) (numf startf : ℕ → ℕ) (hP : 0 < P)
    (hsum : ∑ r ∈ Finset.range P, numf r = nz) (locs : List ShellLocation) :
    ∑ r ∈ Finset.range P,
        (locs.map
          (shell_element_count_proc (withPartition nx ny nz shells P numf startf r))).sum
      = (locs.map
          (shell_element_count (withPartition nx ny nz shells P numf startf 0))).sum := by
  induction locs with
  | nil => simp
  | cons loc rest ih =>
    simp only [List.map_cons, List.sum_cons, Finset.sum_add_distrib]
    rw [ih, sum_shell_element_count_proc nx ny nz shells P numf startf loc hP hsum]

/-- C4: `element_count()` is the hex count `numX*numY*numZ` plus the sum of
the declared shell blocks' global counts (`numY*numZ` for `MX`/`PX`,
`numX*numZ` for `MY`/`PY`, `numX*numY` for `MZ`/`PZ`); for any partition
whose slab sizes sum to `numZ`, summing `element_count_proc()` over all ranks
gives `element_count()`; and the per-processor `MZ` (resp. `PZ`) count is `0`
on every rank other than `0` (resp. `P - 1`). -/
theorem element_count_partition (nx ny nz P : ℕ) (shells : List ShellLocation)
    (numf startf : ℕ → ℕ) (hP : 0 < P)
    (hsum : ∑ r ∈ Finset.range P, numf r = nz) :
    element_count (withPartition nx ny nz shells P numf startf 0)
      = nx * ny * nz
        + (shells.map (fun loc =>
            match loc with
            | MX | PX => ny * nz
            | MY | PY => nx * nz
            | MZ | PZ => nx * ny)).sum ∧
    ∑ r ∈ Finset.range P,
        element_count_proc (withPartition nx ny nz shells P numf startf r)
      = element_count (withPartition nx ny nz shells P numf startf 0) ∧
    (∀ r, r ≠ 0 →
      shell_element_count_proc (withPartition nx ny nz shells P numf startf r) MZ = 0) ∧
    (∀ r, r ≠ P - 1 →
      shell_element_count_proc (withPartition nx ny nz shells P numf startf r) PZ = 0) := by
  refine ⟨?_, ?_, ?_, ?_⟩
  · rfl
  · have hshell := sum_map_shell_proc nx ny nz shells P numf startf hP hsum shells
    simp only [element_count_proc, element_count, withPartition,
      Finset.sum_add_distrib] at hshell ⊢
    rw [hshell, ← Finset.mul_sum, hsum]
  · intro r hr
    simp [shell_element_count_proc, withPartition, hr]
  · intro r hr
    simp [shell_element_count_proc, withPartition, hr]

/-- Witness for C4: `2x3x4` mesh, shells `[MX, MZ, PZ]`, two ranks with slab
sizes `3` and `1`. -/
theorem element_count_partition_witness :
    ((0:ℕ) < 2 ∧ ∑ r ∈ Finset.range 2, (if r = 0 then 3 else 1) = 4) ∧
    ∑ r ∈ Finset.range 2,
        element_count_proc
          (withPartition 2 3 4 [ShellLocation.MX, ShellLocation.MZ, ShellLocation.PZ] 2
            (fun r => if r = 0 then 3 else 1) (fun r => if r = 0 then 0 else 3) r)
      = element_count
          (withPartition 2 3 4 [ShellLocation.MX, ShellLocation.MZ, ShellLocation.PZ] 2
            (fun r => if r = 0 then 3 else 1) (fun r => if r = 0 then 0 else 3) 0) :=
  ⟨⟨by decide, by decide⟩,
   (element_count_partition 2 3 4 2 [ShellLocation.MX, ShellLocation.MZ, ShellLocation.PZ]
     (fun r => if r = 0 then 3 else 1) (fun r => if r = 0 then 0 else 3)
     (by decide) (by decide)).2.1⟩

/-! ### C5/C6: node map and inter-processor node communication map -/

/-- `GeneratedMesh::node_map(map)`: `node_count_proc()` consecutive global
node IDs starting after `myStartZ * (numX+1) * (numY+1)`. -/
def node_map (gm : GeneratedMesh) : List ℕ :=
  (List.range (node_count_proc gm)).map fun i =>
    gm.myStartZ * (gm.numX + 1) * (gm.numY + 1) + i + 1

/-- `GeneratedMesh::node_communication_map(map, proc)` as the list of
`(global node ID, neighbor rank)` entries it writes: the bottom node layer
shared with `myProcessor - 1` on every rank but the first, then the top node
layer shared with `myProcessor + 1` on every rank but the last. -/
def node_communication_map (gm : GeneratedMesh) : List (ℕ × ℕ) :=
  (if gm.myProcessor ≠ 0 then
    (List.range ((gm.numX + 1) * (gm.numY + 1))).map fun i =>
      (gm.myStartZ * (gm.numX + 1) * (gm.numY + 1) + i + 1, gm.myProcessor - 1)
  else []) ++
  (if gm.myProcessor ≠ gm.processorCount - 1 then
    (List.range ((gm.numX + 1) * (gm.numY + 1))).map fun i =>
      ((gm.myStartZ + gm.myNumZ) * (gm.numX + 1) * (gm.numY + 1) + i + 1,
        gm.myProcessor + 1)
  else [])

/-- C5: the communication map holds exactly the bottom-layer nodes paired
with `myProcessor - 1` (absent on rank 0) and the top-layer nodes paired with
`myProcessor + 1` (absent on the last rank); and on the 3-rank `numZ = 3`
uniform partition (with `numX = numY = 1`), rank 0 emits only its top layer
shared with rank 1, rank 1 both layers, and rank 2 only its bottom layer
shared with rank 1. -/
theorem node_communication_map_spec :
    (∀ (gm : GeneratedMesh) (e : ℕ × ℕ),
      e ∈ node_communication_map gm ↔
        (gm.myProcessor ≠ 0 ∧ ∃ i, i < (gm.numX + 1) * (gm.numY + 1) ∧
          e = (gm.myStartZ * (gm.numX + 1) * (gm.numY + 1) + i + 1,
               gm.myProcessor - 1)) ∨
        (gm.myProcessor ≠ gm.processorCount - 1 ∧
          ∃ i, i < (gm.numX + 1) * (gm.numY + 1) ∧
          e = ((gm.myStartZ + gm.myNumZ) * (gm.numX + 1) * (gm.numY + 1) + i + 1,
               gm.myProcessor + 1))) ∧
    node_communication_map (GeneratedMesh.create 1 1 3 3 0)
      = [(5, 1), (6, 1), (7, 1), (8, 1)] ∧
    node_communication_map (GeneratedMesh.create 1 1 3 3 1)
      = [(5, 0), (6, 0), (7, 0), (8, 0), (9, 2), (10, 2), (11, 2), (12, 2)] ∧
    node_communication_map (GeneratedMesh.create 1 1 3 3 2)
      = [(9, 1), (10, 1), (11, 1), (12, 1)] := by
  refine ⟨?_, by decide, by decide, by decide⟩
  intro gm e
  unfold node_communication_map
  split_ifs with h1 h2 h2 <;>
    simp [List.mem_append, List.mem_map, List.mem_range, h1, h2, eq_comm]

/-- C6: `node_map` has exactly `node_count_proc()` entries, entry `k` is
`myStartZ*(numX+1)*(numY+1) + k + 1`, and the entry at the local index of the
node at global layer `myStartZ + mz`, row `i`, column `j` is the global ID
`(myStartZ+mz)*(numX+1)*(numY+1) + i*(numX+1) + j + 1`. -/
theorem node_map_consecutive (gm : GeneratedMesh) :
    (node_map gm).length = node_count_proc gm ∧
    (∀ k, k < node_count_proc gm →
      (node_map gm)[k]? = some (gm.myStartZ * (gm.numX + 1) * (gm.numY + 1) + k + 1)) ∧
    (∀ mz i j, mz ≤ gm.myNumZ → i ≤ gm.numY → j ≤ gm.numX →
      (node_map gm)[mz * ((gm.numY + 1) * (gm.numX + 1)) + i * (gm.numX + 1) + j]?
        = some ((gm.myStartZ + mz) * ((gm.numX + 1) * (gm.numY + 1))
            + i * (gm.numX + 1) + j + 1)) := by
  have hlen : (node_map gm).length = node_count_proc gm := by
    simp [node_map]
  have hget : ∀ k, k < node_count_proc gm →
      (node_map gm)[k]? = some (gm.myStartZ * (gm.numX + 1) * (gm.numY + 1) + k + 1) := by
    intro k hk
    simp [node_map, List.getElem?_map, List.getElem?_range, hk]
  refine ⟨hlen, hget, ?_⟩
  intro mz i j hm hi hj
  have hidx : mz * ((gm.numY + 1) * (gm.numX + 1)) + i * (gm.numX + 1) + j
      < node_count_proc gm := by
    have h := index3_lt mz i j (gm.myNumZ + 1) (gm.numY + 1) (gm.numX + 1)
      (by omega) (by omega) (by omega)
    have heq : (gm.myNumZ + 1) * ((gm.numY + 1) * (gm.numX + 1)) = node_count_proc gm := by
      unfold node_count_proc; ring
    omega
  rw [hget _ hidx]
  congr 1
  ring

/-- Witness for C6: on the `2x2x2` single-rank mesh, entry `5` of the node
map is global ID `6`, and the node at layer `1`, row `1`, column `1` (local
index `13`) has global ID `14`. -/
theorem node_map_consecutive_witness :
    (5 < node_count_proc (GeneratedMesh.create 2 2 2 1 0) ∧
      (1:ℕ) ≤ 2 ∧ (1:ℕ) ≤ 2 ∧ (1:ℕ) ≤ 2) ∧
    (node_map (GeneratedMesh.create 2 2 2 1 0))[5]? = some 6 ∧
    (node_map (GeneratedMesh.create 2 2 2 1 0))[1 * ((2 + 1) * (2 + 1)) + 1 * (2 + 1) + 1]?
      = some 14 :=
  ⟨⟨by decide, by decide, by decide, by decide⟩,
   (node_map_consecutive (GeneratedMesh.create 2 2 2 1 0)).2.1 5 (by decide),
   (node_map_consecutive (GeneratedMesh.create 2 2 2 1 0)).2.2 1 1 1
     (by decide) (by decide) (by decide)⟩

/-! ### C7: hex connectivity scenario -/

/-- The `block_number == 1` (hex block) branch of
`GeneratedMesh::connectivity`: 8 local node indices per element. The source
loops `m` from `myStartZ` to `myStartZ + myNumZ - 1`, with `k` counting the
`(i, j)` iterations of one layer, and
`base = m*xp1yp1 + k + i + 1 - myStartZ*xp1yp1`. -/
def connectivity_hex (gm : GeneratedMesh) : List ℕ :=
  (List.range gm.myNumZ).flatMap fun dm =>
    (List.range gm.numY).flatMap fun i =>
      (List.range gm.numX).flatMap fun j =>
        let xp1yp1 := (gm.numX + 1) * (gm.numY + 1)
        let m := gm.myStartZ + dm
        let k := i * gm.numX + j
        let base := m * xp1yp1 + k + i + 1 - gm.myStartZ * xp1yp1
        [base, base + 1, base + gm.numX + 2, base + gm.numX + 1,
         xp1yp1 + base, xp1yp1 + base + 1, xp1yp1 + base + gm.numX + 2,
         xp1yp1 + base + gm.numX + 1]

/-- C7: `numX = numY = numZ = 2`, one processor: 27 nodes, 8 elements, and
the first hex element's connectivity is `[1, 2, 5, 4, 10, 11, 14, 13]`. -/
theorem scenario_2x2x2 :
    node_count (GeneratedMesh.create 2 2 2 1 0) = 27 ∧
    element_count (GeneratedMesh.create 2 2 2 1 0) = 8 ∧
    (connectivity_hex (GeneratedMesh.create 2 2 2 1 0)).take 8
      = [1, 2, 5, 4, 10, 11, 14, 13] := by
  refine ⟨by decide, by decide, by decide⟩

/-! ### C8: the `zdecomp` option -/

/-- The `zdecomp` branch of `GeneratedMesh::parse_options`, applied to the
already-tokenized list of per-rank interval counts (the source asserts
`tokens.size() == processorCount` and converts each token with `strtol`):
`numZ` becomes the running total of the list, `myNumZ` this rank's entry and
`myStartZ` the sum of the entries before it. -/
def apply_zdecomp (gm : GeneratedMesh) (Zs : List ℕ) : GeneratedMesh :=
  { gm with numZ := Zs.sum
            myNumZ := Zs.getD gm.myProcessor 0
            myStartZ := (Zs.take gm.myProcessor).sum }

/-- Sum of a prefix of a list as a `Finset.range` sum of its entries. -/
theorem sum_take_eq_sum_range (l : List ℕ) (n : ℕ) (hn : n ≤ l.length) :
    (l.take n).sum = ∑ i ∈ Finset.range n, l.getD i 0 := by
  induction n with
  | zero => simp
  | succ n ih =>
    have hget : l[n]? = some (l.getD n 0) := by
      rw [List.getElem?_eq_getElem (by omega)]
      rw [List.getD_eq_getElem l 0 (by omega)]
    rw [Finset.sum_range_succ, ← ih (by omega), List.take_succ, hget]
    simp

/-- C8: after parsing a `zdecomp` option with exactly `processorCount`
values `v_0 .. v_{P-1}`, `numZ` is the sum of all values, `myNumZ` is
`v_{myProcessor}` and `myStartZ` is the prefix sum `v_0 + ... + v_{r-1}`. -/
theorem zdecomp_prefix_sums (gm : GeneratedMesh) (Zs : List ℕ)
    (hlen : Zs.length = gm.processorCount)
    (hr : gm.myProcessor < gm.processorCount) :
    (apply_zdecomp gm Zs).numZ
      = ∑ i ∈ Finset.range gm.processorCount, Zs.getD i 0 ∧
    (apply_zdecomp gm Zs).myNumZ = Zs.getD gm.myProcessor 0 ∧
    (apply_zdecomp gm Zs).myStartZ
      = ∑ i ∈ Finset.range gm.myProcessor, Zs.getD i 0 := by
  refine ⟨?_, rfl, ?_⟩
  · have h := sum_take_eq_sum_range Zs Zs.length le_rfl
    rw [List.take_length] at h
    show Zs.sum = _
    rw [h, hlen]
  · show (Zs.take gm.myProcessor).sum = _
    exact sum_take_eq_sum_range Zs gm.myProcessor (by omega)

/-- Witness for C8: rank 1 of 3 with `zdecomp:1,0,2`. -/
theorem zdecomp_prefix_sums_witness :
    (([1, 0, 2] : List ℕ).length = (GeneratedMesh.create 1 1 3 3 1).processorCount ∧
      (GeneratedMesh.create 1 1 3 3 1).myProcessor
        < (GeneratedMesh.create 1 1 3 3 1).processorCount) ∧
    (apply_zdecomp (GeneratedMesh.create 1 1 3 3 1) [1, 0, 2]).myStartZ
      = ∑ i ∈ Finset.range (GeneratedMesh.create 1 1 3 3 1).myProcessor,
          ([1, 0, 2] : List ℕ).getD i 0 :=
  ⟨⟨by decide, by decide⟩,
   (zdecomp_prefix_sums (GeneratedMesh.create 1 1 3 3 1) [1, 0, 2]
     (by decide) (by decide)).2.2⟩

/-! ### C9: `set_rotation` with an invalid axis -/

/-- The elementary rotation `by[3][3]` built in `GeneratedMesh::set_rotation`
for the index triple `(n1, n2, n3)`:
`by[n1][n1] = cos, by[n1][n2] = sin, by[n2][n1] = -sin, by[n2][n2] = cos,
`by[n3][n3] = 1`, all other entries `0`. -/
def elemRotMat (n1 n2 n3 : Fin 3) (cosang sinang : ℚ) : Fin 3 → Fin 3 → ℚ :=
  fun i j =>
    if i = n1 ∧ j = n1 then cosang
    else if i = n1 ∧ j = n2 then sinang
    else if i = n2 ∧ j = n1 then -sinang
    else if i = n2 ∧ j = n2 then cosang
    else if i = n3 ∧ j = n3 then 1
    else 0

/-- The matrix product `res = rotmat * by` computed entrywise in
`GeneratedMesh::set_rotation`. -/
def matmul3 (a b : Fin 3 → Fin 3 → ℚ) : Fin 3 → Fin 3 → ℚ := fun i j =>
  a i 0 * b 0 j + a i 1 * b 1 j + a i 2 * b 2 j

/-- `GeneratedMesh::set_rotation(axis, angle_degrees)`. `doRotation = true`
is assigned before the axis is validated, so an invalid axis returns with the
flag set and `rotmat` untouched. The cosine and sine of the angle in radians
(`std::cos(ang)`, `std::sin(ang)`) are transcendental and are passed in as
`cosang`, `sinang`; no claim below depends on their values. -/
def set_rotation (gm : GeneratedMesh) (axis : String) (cosang sinang : ℚ) :
    GeneratedMesh :=
  let gm1 := { gm with doRotation := true }
  if axis = "x" ∨ axis = "X" then
    { gm1 with rotmat := matmul3 gm1.rotmat (elemRotMat 1 2 0 cosang sinang) }
  else if axis = "y" ∨ axis = "Y" then
    { gm1 with rotmat := matmul3 gm1.rotmat (elemRotMat 2 0 1 cosang sinang) }
  else if axis = "z" ∨ axis = "Z" then
    { gm1 with rotmat := matmul3 gm1.rotmat (elemRotMat 0 1 2 cosang sinang) }
  else gm1

/-- C9 counterexample: calling `set_rotation` with the invalid axis `"w"` on
a fresh mesh (whose `doRotation` is `false`) leaves `doRotation = true`, so
the rotation state is not unchanged. -/
theorem set_rotation_invalid_axis_cex :
    (GeneratedMesh.create 2 2 2 1 0).doRotation = false ∧
    (set_rotation (GeneratedMesh.create 2 2 2 1 0) "w" 1 0).doRotation = true := by
  constructor
  · rfl
  · rfl

/-- C9 (amended): for an axis string other than `x/X/y/Y/z/Z`, `set_rotation`
is non-fatal and leaves `rotmat` unchanged, but it unconditionally sets the
`doRotation` flag to `true` (the flag is assigned before the axis check). -/
theorem set_rotation_invalid_axis (gm : GeneratedMesh) (axis : String)
    (cosang sinang : ℚ)
    (hx : axis ≠ "x") (hX : axis ≠ "X") (hy : axis ≠ "y") (hY : axis ≠ "Y")
    (hz : axis ≠ "z") (hZ : axis ≠ "Z") :
    (set_rotation gm axis cosang sinang).rotmat = gm.rotmat ∧
    (set_rotation gm axis cosang sinang).doRotation = true := by
  unfold set_rotation
  simp [hx, hX, hy, hY, hz, hZ]

/-- Witness for the amended C9 at axis `"w"`. -/
theorem set_rotation_invalid_axis_witness :
    ("w" ≠ "x" ∧ "w" ≠ "X" ∧ "w" ≠ "y" ∧ "w" ≠ "Y" ∧ "w" ≠ "z" ∧ "w" ≠ "Z") ∧
    ((set_rotation (GeneratedMesh.create 2 2 2 1 0) "w" 1 0).rotmat
        = (GeneratedMesh.create 2 2 2 1 0).rotmat ∧
      (set_rotation (GeneratedMesh.create 2 2 2 1 0) "w" 1 0).doRotation = true) :=
  ⟨⟨by decide, by decide, by decide, by decide, by decide, by decide⟩,
   set_rotation_invalid_axis (GeneratedMesh.create 2 2 2 1 0) "w" 1 0
     (by decide) (by decide) (by decide) (by decide) (by decide) (by decide)⟩

/-! ### C10: `element_surface_map` write bounds -/

/-- The size `element_surface_map` resizes its output vector to:
`2 * shell_element_count_proc(loc)`. -/
def element_surface_map_size (gm : GeneratedMesh) (loc : ShellLocation) : ℕ :=
  2 * shell_element_count_proc gm loc

/-- The sequence of vector positions written by
`GeneratedMesh::element_surface_map(loc, map)`: each iteration writes indices
`2*index` and `2*index + 1`, where `index` counts the iterations of the loop
nest. The side-face loops (`MX`/`PX` over `numY`, `MY`/`PY` over `numX`) run
their outer loop over the global `numZ`, not the local `myNumZ`. -/
def element_surface_map_writes (gm : GeneratedMesh) (loc : ShellLocation) :
    List ℕ :=
  match loc with
  | MX =>
    (List.range gm.numZ).flatMap fun k =>
      (List.range gm.numY).flatMap fun j =>
        [2 * (k * gm.numY + j), 2 * (k * gm.numY + j) + 1]
  | PX =>
    (List.range gm.numZ).flatMap fun k =>
      (List.range gm.numY).flatMap fun j =>
        [2 * (k * gm.numY + j), 2 * (k * gm.numY + j) + 1]
  | MY =>
    (List.range gm.numZ).flatMap fun k =>
      (List.range gm.numX).flatMap fun i =>
        [2 * (k * gm.numX + i), 2 * (k * gm.numX + i) + 1]
  | PY =>
    (List.range gm.numZ).flatMap fun k =>
      (List.range gm.numX).flatMap fun i =>
        [2 * (k * gm.numX + i), 2 * (k * gm.numX + i) + 1]
  | MZ =>
    (List.range gm.numY).flatMap fun j =>
      (List.range gm.numX).flatMap fun i =>
        [2 * (j * gm.numX + i), 2 * (j * gm.numX + i) + 1]
  | PZ =>
    (List.range gm.numY).flatMap fun j =>
      (List.range gm.numX).flatMap fun i =>
        [2 * (j * gm.numX + i), 2 * (j * gm.numX + i) + 1]

/-- A side-face loop nest over `numZ * n` iterations stays below the bound
`2 * (n * myNumZ)` exactly when `myNumZ = numZ`. -/
theorem side_writes_bound_iff (nz n mnz : ℕ) (hn : 0 < n) (hnz : 0 < nz)
    (hle : mnz ≤ nz) :
    (∀ p ∈ (List.range nz).flatMap fun k =>
        (List.range n).flatMap fun j => [2 * (k * n + j), 2 * (k * n + j) + 1],
      p < 2 * (n * mnz)) ↔ mnz = nz := by
  constructor
  · intro h
    have hmem : 2 * ((nz - 1) * n + (n - 1)) + 1
        ∈ (List.range nz).flatMap fun k =>
            (List.range n).flatMap fun j =>
              [2 * (k * n + j), 2 * (k * n + j) + 1] := by
      simp only [List.mem_flatMap, List.mem_range]
      exact ⟨nz - 1, by omega, n - 1, by omega, by simp⟩
    have hb := h _ hmem
    have hexp : (nz - 1) * n + (n - 1) + 1 = nz * n := by
      have : (nz - 1) * n + n = nz * n := by
        rw [show nz * n = (nz - 1 + 1) * n by congr 1; omega]
        ring
      omega
    have hnn : nz * n ≤ n * mnz := by omega
    have h2 : nz * n ≤ mnz * n := by rw [Nat.mul_comm mnz n]; exact hnn
    have : nz ≤ mnz := Nat.le_of_mul_le_mul_right h2 hn
    omega
  · intro heq
    subst heq
    intro p hp
    simp only [List.mem_flatMap, List.mem_range] at hp
    obtain ⟨k, hk, j, hj, hpmem⟩ := hp
    have hidx : k * n + j < mnz * n := index2_lt k j mnz n hk hj
    have hcomm : mnz * n = n * mnz := Nat.mul_comm mnz n
    simp only [List.mem_cons, List.not_mem_nil, or_false] at hpmem
    rcases hpmem with h | h <;> omega

/-- C10: with positive interval counts and `myNumZ <= numZ`, every position
written by `element_surface_map` for the four side-face locations lies
within the resized bound `2 * shell_element_count_proc(loc)` if and only if
`myNumZ = numZ`; and the single-processor construction always has
`myNumZ = numZ`. -/
theorem element_surface_map_bounds (gm : GeneratedMesh)
    (hx : 0 < gm.numX) (hy : 0 < gm.numY) (hz : 0 < gm.numZ)
    (hle : gm.myNumZ ≤ gm.numZ) :
    ((∀ loc ∈ [MX, PX, MY, PY], ∀ p ∈ element_surface_map_writes gm loc,
        p < element_surface_map_size gm loc) ↔ gm.myNumZ = gm.numZ) ∧
    (∀ nx ny nz : ℕ,
      (GeneratedMesh.create nx ny nz 1 0).myNumZ
        = (GeneratedMesh.create nx ny nz 1 0).numZ) := by
  constructor
  · constructor
    · intro h
      exact (side_writes_bound_iff gm.numZ gm.numY gm.myNumZ hy hz hle).mp
        (h MX (by simp))
    · intro heq loc hloc
      have hiffY := (side_writes_bound_iff gm.numZ gm.numY gm.myNumZ hy hz hle).mpr heq
      have hiffX := (side_writes_bound_iff gm.numZ gm.numX gm.myNumZ hx hz hle).mpr heq
      simp only [List.mem_cons, List.not_mem_nil, or_false] at hloc
      rcases hloc with rfl | rfl | rfl | rfl
      · exact hiffY
      · exact hiffY
      · exact hiffX
      · exact hiffX
  · intro nx ny nz
    rfl

/-- Witness for C10: rank 0 of a 2-processor `2x2x2` mesh (`myNumZ = 1`). -/
theorem element_surface_map_bounds_witness :
    (0 < (GeneratedMesh.create 2 2 2 2 0).numX ∧
      0 < (GeneratedMesh.create 2 2 2 2 0).numY ∧
      0 < (GeneratedMesh.create 2 2 2 2 0).numZ ∧
      (GeneratedMesh.create 2 2 2 2 0).myNumZ ≤ (GeneratedMesh.create 2 2 2 2 0).numZ) ∧
    (GeneratedMesh.create 3 4 5 1 0).myNumZ = (GeneratedMesh.create 3 4 5 1 0).numZ :=
  ⟨⟨by decide, by decide, by decide, by decide⟩,
   (element_surface_map_bounds (GeneratedMesh.create 2 2 2 2 0)
     (by decide) (by decide) (by decide) (by decide)).2 3 4 5⟩

end GenMesh
